import Mathlib

/-!
Verification of the VoxFree audio-export subsystem: the chunking engine
(`chunkText`), the resilient fetch ladder (`fetchAudioWithRetry`) and the
export orchestrators (`handleLongExport`, `handleExport`).

JavaScript strings are embedded as `List Char`; JavaScript numbers that occur
here are natural numbers except for the `cutIndex` computation, which uses
`Int` because the source uses `-1` as a sentinel value of `lastIndexOf`.
Browser side effects (fetch, window.open, showError, downloadBlob, delays)
are recorded in an explicit `EffectLog`; the network is an explicit transport
function from the global fetch-attempt counter to a result.
-/

namespace VoxFree

/-- Whitespace test matching JavaScript `trim` / the `\s` class on the
    code points that can occur here (space, tab, newline, carriage return,
    vertical tab, form feed, no-break space). -/
def jsIsWhitespace (c : Char) : Bool :=
  c = ' ' || c = '\t' || c = '\n' || c = '\r' || c = '\x0b' || c = '\x0c' || c = '\xa0'

/-- Leading-whitespace removal, the first half of JavaScript `trim`. -/
def trimStart (s : List Char) : List Char :=
  s.dropWhile jsIsWhitespace

/-- Trailing-whitespace removal, the second half of JavaScript `trim`. -/
def trimEnd (s : List Char) : List Char :=
  (s.reverse.dropWhile jsIsWhitespace).reverse

/-- JavaScript `String.prototype.trim`. -/
def trim (s : List Char) : List Char :=
  trimEnd (trimStart s)

/-- Substring match: the pattern `pat` occurs in `s` starting at index `i`. -/
def occursAt (s pat : List Char) (i : Nat) : Bool :=
  (s.drop i).take pat.length == pat

/-- Backward search used by JavaScript `s.lastIndexOf(pat, i)`: the largest
    start index `k ≤ i` at which `pat` occurs, or `-1`. -/
def lastIndexOfAux (s pat : List Char) : Nat → Int
  | 0 => if occursAt s pat 0 then 0 else -1
  | i + 1 => if occursAt s pat (i + 1) then ((i + 1 : Nat) : Int) else lastIndexOfAux s pat i

/-- JavaScript `s.lastIndexOf(pat, pos)` for a nonempty pattern. -/
def lastIndexOfFrom (s pat : List Char) (pos : Nat) : Int :=
  lastIndexOfAux s pat pos

/-- The fixed list of sentence-ending delimiters of `chunkText`
    (source: `const sentenceEnders = ['. ', '! ', '? ', '.\n', '!\n', '?\n']`). -/
def sentenceEnders : List (List Char) :=
  [['.', ' '], ['!', ' '], ['?', ' '], ['.', '\n'], ['!', '\n'], ['?', '\n']]

/-- One step of the `for (const ender of sentenceEnders)` loop of `chunkText`:
    `if (idx > cutIndex) cutIndex = idx + ender.length`. -/
def enderStep (remaining : List Char) (maxSize : Nat) (cutIndex : Int) (ender : List Char) : Int :=
  let idx := lastIndexOfFrom remaining ender maxSize
  if idx > cutIndex then idx + ender.length else cutIndex

/-- The sentence-boundary search of `chunkText`: the value of `cutIndex`
    after the loop over `sentenceEnders`, starting from `-1`. -/
def findCut (remaining : List Char) (maxSize : Nat) : Int :=
  sentenceEnders.foldl (enderStep remaining maxSize) (-1)

/-- The complete cut-position computation of one `chunkText` loop iteration:
    sentence boundary, else word boundary (`lastIndexOf(' ', maxSize)`), else
    hard cut at `maxSize`. -/
def cutIndexFor (remaining : List Char) (maxSize : Nat) : Nat :=
  let c1 := findCut remaining maxSize
  let c2 := if c1 = -1 then lastIndexOfFrom remaining [' '] maxSize else c1
  let c3 := if c2 = -1 ∨ c2 = 0 then (maxSize : Int) else c2
  c3.toNat

/-- The `while (remaining.length > 0)` loop of `chunkText`. The fuel argument
    only bounds the iteration count; `chunkText` supplies more fuel than the
    loop can consume whenever `maxSize ≥ 1` (proved below), so the `0` case is
    never reached from `chunkText` with a positive bound. -/
def chunkTextGo : Nat → List Char → Nat → List (List Char)
  | 0, _, _ => []
  | fuel + 1, remaining, maxSize =>
    if remaining.length = 0 then []
    else if remaining.length ≤ maxSize then [remaining]
    else
      trim (remaining.take (cutIndexFor remaining maxSize)) ::
        chunkTextGo fuel (trim (remaining.drop (cutIndexFor remaining maxSize))) maxSize

/-- `VoxFreeApp.chunkText(text, maxSize)` (source lines 824-860). -/
def chunkText (text : List Char) (maxSize : Nat) : List (List Char) :=
  chunkTextGo ((trim text).length + 1) (trim text) maxSize

example : chunkText "Hello world".toList 200 = ["Hello world".toList] := by decide
example : chunkText "".toList 200 = [] := by decide
example : chunkText "   ".toList 200 = [] := by decide
example : chunkText "ab cd. e".toList 5 = ["ab cd.".toList, "e".toList] := by decide
example : chunkText "a. ! bcdefgh".toList 6 =
    ["a.".toList, "!".toList, "bcdefg".toList, "h".toList] := by decide
example : chunkText "abcdefgh".toList 3 = ["abc".toList, "def".toList, "gh".toList] := by decide

/-! Basic facts about `trim`. -/

theorem mem_takeWhile_ws {l : List Char} :
    ∀ x ∈ l.takeWhile jsIsWhitespace, jsIsWhitespace x = true := by
  induction l with
  | nil => intro x hx; simp at hx
  | cons a t ih =>
    intro x hx
    rw [List.takeWhile_cons] at hx
    by_cases ha : jsIsWhitespace a
    · simp [ha] at hx
      rcases hx with rfl | hx
      · exact ha
      · exact ih x hx
    · simp [ha] at hx

theorem dropWhile_head_not {p : Char → Bool} :
    ∀ {l : List Char} {a : Char} {t : List Char}, l.dropWhile p = a :: t → p a = false := by
  intro l
  induction l with
  | nil => intro a t h; simp at h
  | cons b u ih =>
    intro a t h
    rw [List.dropWhile_cons] at h
    by_cases hb : p b
    · simp [hb] at h
      exact ih h
    · simp [hb] at h
      rcases h with ⟨rfl, rfl⟩
      simp [hb]

theorem trimStart_decomp (l : List Char) :
    ∃ w, (∀ x ∈ w, jsIsWhitespace x = true) ∧ l = w ++ trimStart l :=
  ⟨l.takeWhile jsIsWhitespace, mem_takeWhile_ws, (List.takeWhile_append_dropWhile ..).symm⟩

theorem trimEnd_decomp (l : List Char) :
    ∃ w, (∀ x ∈ w, jsIsWhitespace x = true) ∧ l = trimEnd l ++ w := by
  refine ⟨(l.reverse.takeWhile jsIsWhitespace).reverse, ?_, ?_⟩
  · intro x hx
    rw [List.mem_reverse] at hx
    exact mem_takeWhile_ws x hx
  · conv_lhs => rw [← l.reverse_reverse,
      ← List.takeWhile_append_dropWhile (p := jsIsWhitespace) (l := l.reverse)]
    rw [List.reverse_append]
    rfl

theorem trimStart_eq_of_head {a : Char} {t : List Char} (h : jsIsWhitespace a = false) :
    trimStart (a :: t) = a :: t := by
  simp [trimStart, List.dropWhile_cons, h]

theorem trimEnd_eq_of_rev_head {l : List Char} {a : Char} {t : List Char}
    (hrev : l.reverse = a :: t) (h : jsIsWhitespace a = false) : trimEnd l = l := by
  have : trimEnd l = (a :: t).reverse := by
    rw [trimEnd, hrev, List.dropWhile_cons, h]
    simp
  rw [this, ← hrev, List.reverse_reverse]

theorem trimEnd_rev (l : List Char) : (trimEnd l).reverse = l.reverse.dropWhile jsIsWhitespace := by
  rw [trimEnd, List.reverse_reverse]

theorem trimEnd_ne_nil_of_head {a : Char} {t : List Char} (h : jsIsWhitespace a = false) :
    trimEnd (a :: t) ≠ [] := by
  intro hnil
  obtain ⟨w, hw, hdec⟩ := trimEnd_decomp (a :: t)
  rw [hnil, List.nil_append] at hdec
  have : jsIsWhitespace a = true := hw a (by rw [← hdec]; exact List.mem_cons_self a t)
  rw [h] at this
  exact Bool.false_ne_true this

theorem trim_eq_trimEnd_of_head {a : Char} {t : List Char} (h : jsIsWhitespace a = false) :
    trim (a :: t) = trimEnd (a :: t) := by
  rw [trim, trimStart_eq_of_head h]

theorem trim_head {a : Char} {t : List Char} (h : jsIsWhitespace a = false) :
    ∃ t2, trim (a :: t) = a :: t2 := by
  rw [trim_eq_trimEnd_of_head h]
  obtain ⟨w, _, hdec⟩ := trimEnd_decomp (a :: t)
  rcases he : trimEnd (a :: t) with _ | ⟨b, u⟩
  · exact absurd he (trimEnd_ne_nil_of_head h)
  · rw [he] at hdec
    have : a = b := by
      have := hdec
      simp at this
      exact this.1
    exact ⟨u, by rw [this]⟩

theorem trim_nil : trim ([] : List Char) = [] := rfl

theorem trimEnd_head {b : Char} {u : List Char} {c : Char} {v : List Char}
    (h : trimEnd (b :: u) = c :: v) : c = b := by
  obtain ⟨w, _, hdec⟩ := trimEnd_decomp (b :: u)
  rw [h] at hdec
  simp at hdec
  exact hdec.1.symm

theorem trim_head_not {l : List Char} {a : Char} {t : List Char}
    (h : trim l = a :: t) : jsIsWhitespace a = false := by
  rcases hs : trimStart l with _ | ⟨b, u⟩
  · rw [trim, hs] at h
    simp [trimEnd] at h
  · rw [trim, hs] at h
    have := trimEnd_head h
    rw [this]
    exact dropWhile_head_not hs

theorem trim_rev_head_not {l : List Char} {a : Char} {t : List Char}
    (h : (trim l).reverse = a :: t) : jsIsWhitespace a = false := by
  rw [trim, trimEnd_rev] at h
  exact dropWhile_head_not h

theorem trimmed_head {R : List Char} {a : Char} {t : List Char}
    (hR : trim R = R) (he : R = a :: t) : jsIsWhitespace a = false :=
  trim_head_not (by rw [hR, he])

theorem trimmed_rev_head {R : List Char} {a : Char} {t : List Char}
    (hR : trim R = R) (he : R.reverse = a :: t) : jsIsWhitespace a = false :=
  trim_rev_head_not (by rw [hR, he])

theorem trimStart_length_le (l : List Char) : (trimStart l).length ≤ l.length := by
  obtain ⟨w, _, hdec⟩ := trimStart_decomp l
  conv_rhs => rw [hdec]
  simp

theorem trimEnd_length_le (l : List Char) : (trimEnd l).length ≤ l.length := by
  obtain ⟨w, _, hdec⟩ := trimEnd_decomp l
  conv_rhs => rw [hdec]
  simp

theorem trim_length_le (l : List Char) : (trim l).length ≤ l.length :=
  le_trans (trimEnd_length_le _) (trimStart_length_le l)

theorem trim_eq_self {l : List Char}
    (hh : ∀ a t, l = a :: t → jsIsWhitespace a = false)
    (hr : ∀ a t, l.reverse = a :: t → jsIsWhitespace a = false) : trim l = l := by
  rcases hl : l with _ | ⟨a, t⟩
  · exact trim_nil
  · have ha := hh a t hl
    rcases hre : (a :: t).reverse with _ | ⟨c, v⟩
    · simp at hre
    · have hc := hr c v (by rw [hl]; exact hre)
      rw [trim, trimStart_eq_of_head ha]
      exact trimEnd_eq_of_rev_head hre hc

theorem trim_trim (l : List Char) : trim (trim l) = trim l :=
  trim_eq_self (fun _ _ h => trim_head_not h) (fun _ _ h => trim_rev_head_not h)

/-! Characterizations of `occursAt`, `lastIndexOfFrom` and the ender fold. -/

theorem occursAt_two {R : List Char} {p w : Char} {i : Nat}
    (h : occursAt R [p, w] i = true) : ∃ t, R.drop i = p :: w :: t := by
  simp only [occursAt, beq_iff_eq, List.length_cons, List.length_nil] at h
  refine ⟨(R.drop i).drop 2, ?_⟩
  conv_lhs => rw [← List.take_append_drop 2 (R.drop i)]
  rw [show (0:Nat) + 1 + 1 = 2 from rfl] at h
  rw [h]
  rfl

theorem occursAt_one {R : List Char} {c : Char} {i : Nat}
    (h : occursAt R [c] i = true) : ∃ t, R.drop i = c :: t := by
  simp only [occursAt, beq_iff_eq, List.length_cons, List.length_nil] at h
  refine ⟨(R.drop i).drop 1, ?_⟩
  conv_lhs => rw [← List.take_append_drop 1 (R.drop i)]
  rw [show (0:Nat) + 1 = 1 from rfl] at h
  rw [h]
  rfl

theorem lastIndexOfAux_spec (s pat : List Char) :
    ∀ i : Nat, (lastIndexOfAux s pat i = -1 ∧ ∀ j, j ≤ i → occursAt s pat j = false) ∨
      (∃ k : Nat, lastIndexOfAux s pat i = (k : Int) ∧ k ≤ i ∧ occursAt s pat k = true ∧
        ∀ j, j ≤ i → occursAt s pat j = true → j ≤ k) := by
  intro i
  induction i with
  | zero =>
    cases h0 : occursAt s pat 0 with
    | false =>
      left
      refine ⟨by simp [lastIndexOfAux, h0], ?_⟩
      intro j hj
      rw [Nat.le_zero.mp hj]
      exact h0
    | true => exact Or.inr ⟨0, by simp [lastIndexOfAux, h0], Nat.le_refl 0, h0, fun j hj _ => hj⟩
  | succ i ih =>
    cases h1 : occursAt s pat (i + 1) with
    | true =>
      exact Or.inr ⟨i + 1, by simp [lastIndexOfAux, h1], Nat.le_refl _, h1, fun j hj _ => hj⟩
    | false =>
      have heq : lastIndexOfAux s pat (i + 1) = lastIndexOfAux s pat i := by
        simp [lastIndexOfAux, h1]
      rcases ih with ⟨hval, hall⟩ | ⟨k, hval, hk, hocc, hmax⟩
      · left
        refine ⟨heq.trans hval, ?_⟩
        intro j hj
        by_cases hji : j ≤ i
        · exact hall j hji
        · have hj1 : j = i + 1 := by omega
          rw [hj1]
          exact h1
      · right
        refine ⟨k, heq.trans hval, Nat.le_succ_of_le hk, hocc, ?_⟩
        intro j hj hjo
        by_cases hji : j ≤ i
        · exact hmax j hji hjo
        · have hj1 : j = i + 1 := by omega
          rw [hj1, h1] at hjo
          exact absurd hjo (by simp)

theorem enderStep_ge (R : List Char) (m : Nat) (c : Int) (e : List Char) :
    c ≤ enderStep R m c e := by
  simp only [enderStep]
  split
  · next h => omega
  · exact le_refl c

theorem foldl_enderStep_ge (R : List Char) (m : Nat) :
    ∀ (l : List (List Char)) (c : Int), c ≤ l.foldl (enderStep R m) c := by
  intro l
  induction l with
  | nil => intro c; exact le_refl c
  | cons e t ih => intro c; exact le_trans (enderStep_ge R m c e) (ih _)

theorem foldl_enderStep_ub (R : List Char) (m : Nat) :
    ∀ (l : List (List Char)) (c : Int) (e : List Char), e ∈ l →
      lastIndexOfFrom R e m ≤ l.foldl (enderStep R m) c := by
  intro l
  induction l with
  | nil => intro c e he; simp at he
  | cons f t ih =>
    intro c e he
    rcases List.mem_cons.mp he with rfl | he2
    · have h1 : lastIndexOfFrom R e m ≤ enderStep R m c e := by
        simp only [enderStep]
        split
        · next h => omega
        · next h => omega
      exact le_trans h1 (foldl_enderStep_ge R m t _)
    · exact ih _ e he2

theorem foldl_enderStep_shape (R : List Char) (m : Nat) :
    ∀ (l : List (List Char)) (c : Int), -1 ≤ c →
      l.foldl (enderStep R m) c = c ∨
      ∃ e ∈ l, ∃ i : Nat, lastIndexOfFrom R e m = (i : Int) ∧
        l.foldl (enderStep R m) c = (i : Int) + e.length := by
  intro l
  induction l with
  | nil => intro c _; exact Or.inl rfl
  | cons f t ih =>
    intro c hc
    by_cases hstep : lastIndexOfFrom R f m > c
    · have hf : enderStep R m c f = lastIndexOfFrom R f m + f.length := by
        simp only [enderStep]
        rw [if_pos hstep]
    -- the updated accumulator is a genuine index, since it exceeds c ≥ -1
      have hge : (0 : Int) ≤ lastIndexOfFrom R f m := by omega
      obtain ⟨i, hi⟩ : ∃ i : Nat, lastIndexOfFrom R f m = (i : Int) :=
        ⟨(lastIndexOfFrom R f m).toNat, (Int.toNat_of_nonneg hge).symm⟩
      have hc2 : -1 ≤ enderStep R m c f := le_trans hc (enderStep_ge R m c f)
      rcases ih (enderStep R m c f) hc2 with heq | ⟨e, hel, j, hj, hval⟩
      · exact Or.inr ⟨f, List.mem_cons_self f t, i, hi, by rw [List.foldl_cons, heq, hf, hi]⟩
      · exact Or.inr ⟨e, List.mem_cons_of_mem f hel, j, hj, by rw [List.foldl_cons]; exact hval⟩
    · have hf : enderStep R m c f = c := by
        simp only [enderStep]
        rw [if_neg hstep]
      rcases ih c hc with heq | ⟨e, hel, j, hj, hval⟩
      · left
        rw [List.foldl_cons, hf]
        exact heq
      · exact Or.inr ⟨e, List.mem_cons_of_mem f hel, j, hj, by rw [List.foldl_cons, hf]; exact hval⟩

theorem sentenceEnders_shape :
    ∀ e ∈ sentenceEnders, ∃ p w, e = [p, w] ∧ jsIsWhitespace p = false ∧ jsIsWhitespace w = true := by
  intro e he
  fin_cases he
  · exact ⟨'.', ' ', rfl, by decide, by decide⟩
  · exact ⟨'!', ' ', rfl, by decide, by decide⟩
  · exact ⟨'?', ' ', rfl, by decide, by decide⟩
  · exact ⟨'.', '\n', rfl, by decide, by decide⟩
  · exact ⟨'!', '\n', rfl, by decide, by decide⟩
  · exact ⟨'?', '\n', rfl, by decide, by decide⟩

theorem findCut_none {R : List Char} {m : Nat}
    (h : ∀ e ∈ sentenceEnders, ∀ i, i ≤ m → occursAt R e i = false) :
    findCut R m = -1 := by
  rcases foldl_enderStep_shape R m sentenceEnders (-1) (le_refl _) with heq | ⟨e, hel, i, hi, _⟩
  · exact heq
  · exfalso
    rcases lastIndexOfAux_spec R e m with ⟨hneg, _⟩ | ⟨k, hk, hkm, hocc, _⟩
    · rw [lastIndexOfFrom, hneg] at hi
      omega
    · rw [lastIndexOfFrom, hk] at hi
      have hki : k = i := by exact_mod_cast hi
      have := h e hel k hkm
      rw [this] at hocc
      exact absurd hocc (by simp)

theorem findCut_found {R : List Char} {m : Nat} {e0 : List Char} {i0 : Nat}
    (he0 : e0 ∈ sentenceEnders) (hi0 : i0 ≤ m) (hocc0 : occursAt R e0 i0 = true) :
    ∃ e ∈ sentenceEnders, ∃ i : Nat, occursAt R e i = true ∧ i ≤ m ∧
      findCut R m = (i : Int) + 2 ∧
      ∀ eb ∈ sentenceEnders, ∀ j, j ≤ m → occursAt R eb j = true →
        (j : Int) ≤ findCut R m := by
  have hub : ∀ eb ∈ sentenceEnders, ∀ j, j ≤ m → occursAt R eb j = true →
      (j : Int) ≤ findCut R m := by
    intro eb hebl j hj hjo
    have h1 : (j : Int) ≤ lastIndexOfFrom R eb m := by
      rcases lastIndexOfAux_spec R eb m with ⟨_, hall⟩ | ⟨k, hk, _, _, hmax⟩
      · rw [hall j hj] at hjo
        exact absurd hjo (by simp)
      · rw [lastIndexOfFrom, hk]
        exact_mod_cast hmax j hj hjo
    exact le_trans h1 (foldl_enderStep_ub R m sentenceEnders (-1) eb hebl)
  rcases foldl_enderStep_shape R m sentenceEnders (-1) (le_refl _) with heq | ⟨e, hel, i, hi, hval⟩
  · exfalso
    have := hub e0 he0 i0 hi0 hocc0
    rw [findCut] at this
    rw [heq] at this
    omega
  · obtain ⟨p, w, hew, _, _⟩ := sentenceEnders_shape e hel
    have hlen2 : (e.length : Int) = 2 := by rw [hew]; rfl
    rcases lastIndexOfAux_spec R e m with ⟨hneg, _⟩ | ⟨k, hk, hkm, hocc, _⟩
    · rw [lastIndexOfFrom, hneg] at hi
      omega
    · rw [lastIndexOfFrom, hk] at hi
      have hki : k = i := by exact_mod_cast hi
      refine ⟨e, hel, i, by rw [← hki]; exact hocc, by omega, ?_, hub⟩
      rw [findCut, hval, hlen2]

/-! Analysis of one iteration of the `chunkText` loop. -/

theorem ender_split {R : List Char} {p w : Char} {i : Nat} {t : List Char}
    (hdrop : R.drop i = p :: w :: t) :
    R = R.take i ++ (p :: w :: t) ∧ i + 2 + t.length = R.length ∧ (R.take i).length = i := by
  have hsplit : R = R.take i ++ (p :: w :: t) := by
    conv_lhs => rw [← List.take_append_drop i R]
    rw [hdrop]
  have hld : (R.drop i).length = R.length - i := List.length_drop i R
  rw [hdrop] at hld
  simp at hld
  have hlen : i + 2 + t.length = R.length := by omega
  refine ⟨hsplit, hlen, ?_⟩
  rw [List.length_take]
  omega

theorem trim_take_ender {R : List Char} {p w : Char} {i : Nat} {t : List Char}
    (ht : trim R = R) (hne : R ≠ [])
    (hp : jsIsWhitespace p = false) (hw : jsIsWhitespace w = true)
    (hdrop : R.drop i = p :: w :: t) :
    trim (R.take (i + 2)) = R.take i ++ [p] ∧ i + 2 < R.length := by
  obtain ⟨hsplit, hlen, htak⟩ := ender_split hdrop
  have htake2 : R.take (i + 2) = R.take i ++ [p, w] := by
    conv_lhs => rw [hsplit]
    rw [List.take_append_eq_append_take]
    have h1 : (R.take i).take (i + 2) = R.take i := List.take_of_length_le (by omega)
    have h2 : i + 2 - (R.take i).length = 2 := by omega
    rw [h1, h2]
    rfl
  obtain ⟨a, t0, hR0⟩ : ∃ a t0, R = a :: t0 := by
    cases R with
    | nil => exact absurd rfl hne
    | cons a t0 => exact ⟨a, t0, rfl⟩
  have ha : jsIsWhitespace a = false := trimmed_head ht hR0
  have htkcons : R.take (i + 2) = a :: (t0.take (i + 1)) := by
    rw [hR0]
    rfl
  have hchunk_eq : trim (R.take (i + 2)) = trimEnd (R.take (i + 2)) := by
    rw [htkcons, trim_eq_trimEnd_of_head ha, ← htkcons]
  have htrimEnd : trimEnd (R.take i ++ [p, w]) = R.take i ++ [p] := by
    rw [trimEnd]
    rw [show (R.take i ++ [p, w]).reverse = w :: p :: (R.take i).reverse by simp]
    rw [List.dropWhile_cons, hw]
    simp only [if_true]
    rw [List.dropWhile_cons, hp]
    simp
  have hchunkval : trim (R.take (i + 2)) = R.take i ++ [p] := by
    rw [hchunk_eq, htake2, htrimEnd]
  refine ⟨hchunkval, ?_⟩
  by_cases htnil : t = []
  · exfalso
    rw [htnil] at hsplit
    have hrev : R.reverse = w :: p :: (R.take i).reverse := by
      conv_lhs => rw [hsplit]
      simp
    have := trimmed_rev_head ht hrev
    rw [hw] at this
    exact absurd this (by simp)
  · have : 1 ≤ t.length := by
      cases t with
      | nil => exact absurd rfl htnil
      | cons _ _ => simp
    omega

theorem cut_spec (R : List Char) (m : Nat) (hm : 1 ≤ m) (ht : trim R = R) (hne : R ≠ [])
    (hlen : m < R.length) :
    1 ≤ cutIndexFor R m ∧ cutIndexFor R m < R.length ∧
      (trim (R.take (cutIndexFor R m))).length ≤ m + 1 := by
  by_cases hfc : ∃ e ∈ sentenceEnders, ∃ i, i ≤ m ∧ occursAt R e i = true
  · obtain ⟨e0, he0, i0, hi0, hocc0⟩ := hfc
    obtain ⟨e, hel, i, hocc, him, hfcval, _⟩ := findCut_found he0 hi0 hocc0
    have hcut : cutIndexFor R m = i + 2 := by
      simp only [cutIndexFor, hfcval]
      rw [if_neg (by omega)]
      rw [if_neg (by omega)]
      omega
    obtain ⟨p, w, hew, hp, hw⟩ := sentenceEnders_shape e hel
    rw [hew] at hocc
    obtain ⟨t, hdrop⟩ := occursAt_two hocc
    obtain ⟨hchunkval, hstrict⟩ := trim_take_ender ht hne hp hw hdrop
    obtain ⟨_, _, htak⟩ := ender_split hdrop
    rw [hcut]
    refine ⟨by omega, hstrict, ?_⟩
    rw [hchunkval]
    simp only [List.length_append, htak, List.length_cons, List.length_nil]
    omega
  · have hnone : ∀ e ∈ sentenceEnders, ∀ i, i ≤ m → occursAt R e i = false := by
      intro e he i hi
      cases hocc : occursAt R e i with
      | false => rfl
      | true => exact absurd ⟨e, he, i, hi, hocc⟩ hfc
    have hc1 : findCut R m = -1 := findCut_none hnone
    rcases lastIndexOfAux_spec R [' '] m with ⟨hneg, _⟩ | ⟨k, hk, hkm, hocc, _⟩
    · have hcut : cutIndexFor R m = m := by
        simp only [cutIndexFor, hc1, if_true]
        rw [lastIndexOfFrom, hneg]
        simp
      rw [hcut]
      refine ⟨hm, hlen, ?_⟩
      calc (trim (R.take m)).length ≤ (R.take m).length := trim_length_le _
        _ ≤ m := by rw [List.length_take]; omega
        _ ≤ m + 1 := by omega
    · have hk1 : 1 ≤ k := by
        by_contra hk0
        have : k = 0 := by omega
        rw [this] at hocc
        obtain ⟨t, hdr⟩ := occursAt_one hocc
        simp at hdr
        have := trimmed_head ht hdr
        exact absurd this (by decide)
      have hcut : cutIndexFor R m = k := by
        simp only [cutIndexFor, hc1, if_true]
        rw [lastIndexOfFrom, hk]
        rw [if_neg (show ¬((k : Int) = -1 ∨ (k : Int) = 0) by omega)]
        omega
      rw [hcut]
      refine ⟨hk1, by omega, ?_⟩
      calc (trim (R.take k)).length ≤ (R.take k).length := trim_length_le _
        _ ≤ k := by rw [List.length_take]; omega
        _ ≤ m + 1 := by omega

/-- Branch analysis of the cut computation: either a sentence delimiter is
    found in the window, the cut lands immediately after it and the emitted
    chunk has length exactly one past the delimiter start; or no delimiter
    occurs in the window (word-boundary or hard cut) and the emitted chunk
    respects `maxSize`. -/
theorem cut_cases (R : List Char) (m : Nat) (hm : 1 ≤ m) (ht : trim R = R) (hne : R ≠ [])
    (hlen : m < R.length) :
    (∃ e ∈ sentenceEnders, ∃ i, occursAt R e i = true ∧ i ≤ m ∧
      cutIndexFor R m = i + 2 ∧ (trim (R.take (cutIndexFor R m))).length = i + 1) ∨
    ((∀ e ∈ sentenceEnders, ∀ i, i ≤ m → occursAt R e i = false) ∧
      (trim (R.take (cutIndexFor R m))).length ≤ m) := by
  by_cases hfc : ∃ e ∈ sentenceEnders, ∃ i, i ≤ m ∧ occursAt R e i = true
  · left
    obtain ⟨e0, he0, i0, hi0, hocc0⟩ := hfc
    obtain ⟨e, hel, i, hocc, him, hfcval, _⟩ := findCut_found he0 hi0 hocc0
    have hcut : cutIndexFor R m = i + 2 := by
      simp only [cutIndexFor, hfcval]
      rw [if_neg (by omega)]
      rw [if_neg (by omega)]
      omega
    obtain ⟨p, w, hew, hp, hw⟩ := sentenceEnders_shape e hel
    rw [hew] at hocc
    obtain ⟨t, hdrop⟩ := occursAt_two hocc
    obtain ⟨hchunkval, _⟩ := trim_take_ender ht hne hp hw hdrop
    obtain ⟨_, _, htak⟩ := ender_split hdrop
    refine ⟨e, hel, i, by rw [hew]; exact hocc, him, hcut, ?_⟩
    rw [hcut, hchunkval]
    simp [htak]
  · right
    have hnone : ∀ e ∈ sentenceEnders, ∀ i, i ≤ m → occursAt R e i = false := by
      intro e he i hi
      cases hocc : occursAt R e i with
      | false => rfl
      | true => exact absurd ⟨e, he, i, hi, hocc⟩ hfc
    refine ⟨hnone, ?_⟩
    have hc1 : findCut R m = -1 := findCut_none hnone
    rcases lastIndexOfAux_spec R [' '] m with ⟨hneg, _⟩ | ⟨k, hk, hkm, hocc, _⟩
    · have hcut : cutIndexFor R m = m := by
        simp only [cutIndexFor, hc1, if_true]
        rw [lastIndexOfFrom, hneg]
        simp
      rw [hcut]
      calc (trim (R.take m)).length ≤ (R.take m).length := trim_length_le _
        _ ≤ m := by rw [List.length_take]; omega
    · have hk1 : 1 ≤ k := by
        by_contra hk0
        have : k = 0 := by omega
        rw [this] at hocc
        obtain ⟨t, hdr⟩ := occursAt_one hocc
        simp at hdr
        have := trimmed_head ht hdr
        exact absurd this (by decide)
      have hcut : cutIndexFor R m = k := by
        simp only [cutIndexFor, hc1, if_true]
        rw [lastIndexOfFrom, hk]
        rw [if_neg (show ¬((k : Int) = -1 ∨ (k : Int) = 0) by omega)]
        omega
      rw [hcut]
      calc (trim (R.take k)).length ≤ (R.take k).length := trim_length_le _
        _ ≤ k := by rw [List.length_take]; omega
        _ ≤ m := hkm

theorem take_drop_trim_decomp (R : List Char) (cut : Nat) (ht : trim R = R) (hne : R ≠ [])
    (h1 : 1 ≤ cut) (h2 : cut < R.length) :
    ∃ w, (∀ x ∈ w, jsIsWhitespace x = true) ∧
      R = trim (R.take cut) ++ (w ++ trim (R.drop cut)) ∧
      trim (R.take cut) ≠ [] ∧ trim (R.drop cut) ≠ [] ∧
      (trim (R.drop cut)).length < R.length := by
  obtain ⟨a, t0, hR0⟩ : ∃ a t0, R = a :: t0 := by
    cases R with
    | nil => exact absurd rfl hne
    | cons a t0 => exact ⟨a, t0, rfl⟩
  have ha : jsIsWhitespace a = false := trimmed_head ht hR0
  obtain ⟨c2, rfl⟩ : ∃ c2, cut = c2 + 1 := ⟨cut - 1, by omega⟩
  have htkcons : R.take (c2 + 1) = a :: t0.take c2 := by
    rw [hR0]
    rfl
  have htake_trim : trim (R.take (c2 + 1)) = trimEnd (R.take (c2 + 1)) := by
    rw [htkcons, trim_eq_trimEnd_of_head ha, ← htkcons]
  have hchunk_ne : trim (R.take (c2 + 1)) ≠ [] := by
    rw [htake_trim, htkcons]
    exact trimEnd_ne_nil_of_head ha
  obtain ⟨w2, hw2, hdec2⟩ := trimEnd_decomp (R.take (c2 + 1))
  have hDne : R.drop (c2 + 1) ≠ [] := by
    intro h
    have := List.length_drop (c2 + 1) R
    rw [h] at this
    simp at this
    omega
  obtain ⟨br, ur, hDrev⟩ : ∃ br ur, (R.drop (c2 + 1)).reverse = br :: ur := by
    cases hDr : (R.drop (c2 + 1)).reverse with
    | nil => exact absurd (by simpa using congrArg List.reverse hDr) hDne
    | cons br ur => exact ⟨br, ur, rfl⟩
  have hbr : jsIsWhitespace br = false := by
    have hRrev : R.reverse = br :: (ur ++ (R.take (c2 + 1)).reverse) := by
      conv_lhs => rw [← List.take_append_drop (c2 + 1) R]
      rw [List.reverse_append, hDrev]
      rfl
    exact trimmed_rev_head ht hRrev
  obtain ⟨w1, hw1, hdec1⟩ := trimStart_decomp (R.drop (c2 + 1))
  have hSne : trimStart (R.drop (c2 + 1)) ≠ [] := by
    intro h
    rw [h, List.append_nil] at hdec1
    have hmem : br ∈ R.drop (c2 + 1) := by
      rw [← List.mem_reverse, hDrev]
      exact List.mem_cons_self br ur
    rw [hdec1] at hmem
    have := hw1 br hmem
    rw [hbr] at this
    exact absurd this (by simp)
  obtain ⟨c, v, hSrev⟩ : ∃ c v, (trimStart (R.drop (c2 + 1))).reverse = c :: v := by
    cases hSr : (trimStart (R.drop (c2 + 1))).reverse with
    | nil => exact absurd (by simpa using congrArg List.reverse hSr) hSne
    | cons c v => exact ⟨c, v, rfl⟩
  have hcbr : c = br := by
    have : (R.drop (c2 + 1)).reverse = c :: (v ++ w1.reverse) := by
      conv_lhs => rw [hdec1]
      rw [List.reverse_append, hSrev]
      rfl
    rw [hDrev] at this
    exact (List.cons.injEq .. ▸ this).1.symm
  have htrimD : trim (R.drop (c2 + 1)) = trimStart (R.drop (c2 + 1)) := by
    rw [trim]
    exact trimEnd_eq_of_rev_head hSrev (by rw [hcbr]; exact hbr)
  have hDtrim_ne : trim (R.drop (c2 + 1)) ≠ [] := by
    rw [htrimD]
    exact hSne
  refine ⟨w2 ++ w1, ?_, ?_, hchunk_ne, hDtrim_ne, ?_⟩
  · intro x hx
    rcases List.mem_append.mp hx with hx2 | hx1
    · exact hw2 x hx2
    · exact hw1 x hx1
  · conv_lhs => rw [← List.take_append_drop (c2 + 1) R]
    calc R.take (c2 + 1) ++ R.drop (c2 + 1)
        = (trim (R.take (c2 + 1)) ++ w2) ++ (w1 ++ trim (R.drop (c2 + 1))) := by
          rw [← htake_trim] at hdec2
          rw [← hdec2]
          rw [htrimD, ← hdec1]
      _ = trim (R.take (c2 + 1)) ++ ((w2 ++ w1) ++ trim (R.drop (c2 + 1))) := by
          simp [List.append_assoc]
  · have hle : (trim (R.drop (c2 + 1))).length ≤ (R.drop (c2 + 1)).length := trim_length_le _
    have := List.length_drop (c2 + 1) R
    omega

/-- Reassembly up to boundary whitespace: `Reassembles T cs` says that `T` is
    exactly the concatenation of the pieces `cs` in order, with some (possibly
    empty) all-whitespace filler between consecutive pieces and nothing else. -/
inductive Reassembles : List Char → List (List Char) → Prop
  | nil : Reassembles [] []
  | single (c : List Char) : Reassembles c [c]
  | cons (c w rest : List Char) (cs : List (List Char)) :
      (∀ x ∈ w, jsIsWhitespace x = true) → cs ≠ [] → Reassembles rest cs →
      Reassembles (c ++ (w ++ rest)) (c :: cs)

theorem chunkTextGo_spec :
    ∀ (fuel : Nat) (R : List Char) (m : Nat), 1 ≤ m → trim R = R → R.length < fuel →
      Reassembles R (chunkTextGo fuel R m) ∧
      (chunkTextGo fuel R m = [] ↔ R = []) ∧
      (∀ ch ∈ chunkTextGo fuel R m, trim ch = ch ∧ ch ≠ [] ∧ ch.length ≤ m + 1) := by
  intro fuel
  induction fuel with
  | zero => intro R m _ _ hf; omega
  | succ fuel ih =>
    intro R m hm ht hf
    by_cases hR0 : R.length = 0
    · have hRnil : R = [] := by
        cases R with
        | nil => rfl
        | cons a t => simp at hR0
      have hval : chunkTextGo (fuel + 1) R m = [] := by
        simp only [chunkTextGo, if_pos hR0]
      rw [hval, hRnil]
      exact ⟨Reassembles.nil, by simp, by simp⟩
    · have hne : R ≠ [] := by
        intro h
        rw [h] at hR0
        exact hR0 rfl
      by_cases hle : R.length ≤ m
      · have hval : chunkTextGo (fuel + 1) R m = [R] := by
          simp only [chunkTextGo, if_neg hR0, if_pos hle]
        rw [hval]
        refine ⟨Reassembles.single R, by simp [hne], ?_⟩
        intro ch hch
        rw [List.mem_singleton.mp hch]
        exact ⟨ht, hne, by omega⟩
      · obtain ⟨hc1, hc2, hcb⟩ := cut_spec R m hm ht hne (by omega)
        obtain ⟨w, hws, hdec, hcne, hrne, hrlt⟩ :=
          take_drop_trim_decomp R (cutIndexFor R m) ht hne hc1 hc2
        have hrt : trim (trim (R.drop (cutIndexFor R m))) = trim (R.drop (cutIndexFor R m)) :=
          trim_trim _
        obtain ⟨hreasm, hiff, hchunks⟩ :=
          ih (trim (R.drop (cutIndexFor R m))) m hm hrt (by omega)
        have hval : chunkTextGo (fuel + 1) R m =
            trim (R.take (cutIndexFor R m)) ::
              chunkTextGo fuel (trim (R.drop (cutIndexFor R m))) m := by
          simp only [chunkTextGo, if_neg hR0, if_neg hle]
        rw [hval]
        refine ⟨?_, by simp [hne], ?_⟩
        · have hcsne : chunkTextGo fuel (trim (R.drop (cutIndexFor R m))) m ≠ [] := by
            intro h
            exact hrne (hiff.mp h)
          have h2 : Reassembles
              (trim (R.take (cutIndexFor R m)) ++ (w ++ trim (R.drop (cutIndexFor R m))))
              (trim (R.take (cutIndexFor R m)) ::
                chunkTextGo fuel (trim (R.drop (cutIndexFor R m))) m) :=
            Reassembles.cons _ w _ _ hws hcsne hreasm
          rw [← hdec] at h2
          exact h2
        · intro ch hch
          rcases List.mem_cons.mp hch with rfl | hch2
          · exact ⟨trim_trim _, hcne, hcb⟩
          · exact hchunks ch hch2

theorem chunkTextGo_fuel :
    ∀ (f1 : Nat) (R : List Char) (m : Nat) (f2 : Nat), 1 ≤ m → trim R = R →
      R.length < f1 → R.length < f2 → chunkTextGo f1 R m = chunkTextGo f2 R m := by
  intro f1
  induction f1 with
  | zero => intro R m f2 _ _ h1 _; omega
  | succ f ih =>
    intro R m f2 hm ht h1 h2
    obtain ⟨g, rfl⟩ : ∃ g, f2 = g + 1 := ⟨f2 - 1, by omega⟩
    by_cases hR0 : R.length = 0
    · simp only [chunkTextGo, if_pos hR0]
    · have hne : R ≠ [] := by
        intro h
        rw [h] at hR0
        exact hR0 rfl
      by_cases hle : R.length ≤ m
      · simp only [chunkTextGo, if_neg hR0, if_pos hle]
      · simp only [chunkTextGo, if_neg hR0, if_neg hle]
        obtain ⟨hc1, hc2, _⟩ := cut_spec R m hm ht hne (by omega)
        obtain ⟨w, _, _, _, _, hrlt⟩ :=
          take_drop_trim_decomp R (cutIndexFor R m) ht hne hc1 hc2
        rw [ih (trim (R.drop (cutIndexFor R m))) m g hm (trim_trim _) (by omega) (by omega)]

/-- The last chunk of a run is always the final remainder, emitted by the
    `remaining.length <= maxSize` branch, so it respects `maxSize`. -/
theorem chunkTextGo_last :
    ∀ (fuel : Nat) (R : List Char) (m : Nat), 1 ≤ m → trim R = R → R.length < fuel →
      ∀ ch, (chunkTextGo fuel R m).getLast? = some ch → ch.length ≤ m := by
  intro fuel
  induction fuel with
  | zero => intro R m _ _ hf; omega
  | succ fuel ih =>
    intro R m hm ht hf ch hch
    by_cases hR0 : R.length = 0
    · rw [show chunkTextGo (fuel + 1) R m = [] by simp only [chunkTextGo, if_pos hR0]] at hch
      simp at hch
    · have hne : R ≠ [] := by
        intro h
        rw [h] at hR0
        exact hR0 rfl
      by_cases hle : R.length ≤ m
      · rw [show chunkTextGo (fuel + 1) R m = [R] by
          simp only [chunkTextGo, if_neg hR0, if_pos hle]] at hch
        have hRch : R = ch := by simpa using hch
        rw [← hRch]
        exact hle
      · obtain ⟨hc1, hc2, _⟩ := cut_spec R m hm ht hne (by omega)
        obtain ⟨w, _, _, _, hrne, hrlt⟩ :=
          take_drop_trim_decomp R (cutIndexFor R m) ht hne hc1 hc2
        have hval : chunkTextGo (fuel + 1) R m =
            trim (R.take (cutIndexFor R m)) ::
              chunkTextGo fuel (trim (R.drop (cutIndexFor R m))) m := by
          simp only [chunkTextGo, if_neg hR0, if_neg hle]
        rw [hval] at hch
        cases hcs : chunkTextGo fuel (trim (R.drop (cutIndexFor R m))) m with
        | nil =>
          exfalso
          have := (chunkTextGo_spec fuel (trim (R.drop (cutIndexFor R m))) m hm
            (trim_trim _) (by omega)).2.1
          exact hrne (this.mp hcs)
        | cons b t =>
          rw [hcs, List.getLast?_cons_cons] at hch
          exact ih (trim (R.drop (cutIndexFor R m))) m hm (trim_trim _) (by omega) ch
            (by rw [hcs]; exact hch)

theorem chunkText_reassembles (text : List Char) (m : Nat) (hm : 1 ≤ m) :
    Reassembles (trim text) (chunkText text m) :=
  (chunkTextGo_spec ((trim text).length + 1) (trim text) m hm (trim_trim text) (by omega)).1

theorem chunkText_chunks (text : List Char) (m : Nat) (hm : 1 ≤ m) :
    ∀ ch ∈ chunkText text m, trim ch = ch ∧ ch ≠ [] ∧ ch.length ≤ m + 1 :=
  (chunkTextGo_spec ((trim text).length + 1) (trim text) m hm (trim_trim text) (by omega)).2.2

/-- Modelled from the spec for comparison purposes only: the start index of the
    nearest preceding sentence-ending delimiter within the window, that is the
    largest index `i ≤ maxSize` at which some member of `sentenceEnders` occurs. -/
def nearestEnderStart (remaining : List Char) (maxSize : Nat) : Option Nat :=
  ((List.range (maxSize + 1)).filter
    (fun i => sentenceEnders.any (fun e => occursAt remaining e i))).getLast?

/-- Modelled from the spec for comparison purposes only: the cut position
    demanded by the claim, immediately after the nearest preceding
    sentence-ending delimiter (all delimiters have length 2). -/
def nearestEnderCut (remaining : List Char) (maxSize : Nat) : Option Nat :=
  (nearestEnderStart remaining maxSize).map (fun i => i + 2)

/-- C1: for every input string T and every bound N > 0, concatenating the chunks
    of `chunkText` in sequence order, allowing whitespace normalization at each
    chunk boundary, reproduces exactly the trimmed content of T: no character
    other than boundary whitespace is dropped, duplicated, or reordered. -/
theorem claim_c1_chunk_reassembly (T : List Char) (N : Nat) (hN : 0 < N) :
    Reassembles (trim T) (chunkText T N) :=
  chunkText_reassembles T N hN

theorem claim_c1_witness :
    Reassembles (trim "Hello world. This is VoxFree!  Bye".toList)
      (chunkText "Hello world. This is VoxFree!  Bye".toList 14) :=
  claim_c1_chunk_reassembly "Hello world. This is VoxFree!  Bye".toList 14 (by decide)

/-- C3 counterexample: for the input "ab cd. e" with maxSize 5 (a text whose
    tokens all have length at most 3, so the single-long-token exception does
    not apply), `chunkText` emits the chunk "ab cd." of length 6 > 5, because
    the sentence delimiter ". " starting exactly at offset 5 is accepted by
    `lastIndexOf(ender, maxSize)` and the cut lands one past the bound. -/
theorem claim_c3_counterexample :
    ¬ (∀ ch ∈ chunkText "ab cd. e".toList 5, ch.length ≤ 5) := by decide

/-- C3 amended: every chunk emitted by `chunkText text maxSize` with
    maxSize ≥ 1 has length at most maxSize + 1 (first conjunct); any chunk a
    loop iteration emits beyond the bound has length exactly maxSize + 1 and
    arises from a sentence-ending delimiter starting exactly at offset
    maxSize, with the cut immediately after it (second conjunct); when no
    sentence delimiter occurs in the window, that is on word-boundary and
    hard cuts, the emitted chunk respects maxSize (third conjunct); and the
    final chunk always respects maxSize (fourth conjunct). -/
theorem claim_c3_amended (text : List Char) (maxSize : Nat) (h : 1 ≤ maxSize) :
    (∀ ch ∈ chunkText text maxSize, ch.length ≤ maxSize + 1) ∧
    (∀ R, trim R = R → R ≠ [] → maxSize < R.length →
      maxSize < (trim (R.take (cutIndexFor R maxSize))).length →
        (trim (R.take (cutIndexFor R maxSize))).length = maxSize + 1 ∧
        cutIndexFor R maxSize = maxSize + 2 ∧
        ∃ e ∈ sentenceEnders, occursAt R e maxSize = true) ∧
    (∀ R, trim R = R → R ≠ [] → maxSize < R.length →
      (∀ e ∈ sentenceEnders, ∀ i, i ≤ maxSize → occursAt R e i = false) →
        (trim (R.take (cutIndexFor R maxSize))).length ≤ maxSize) ∧
    (∀ ch, (chunkText text maxSize).getLast? = some ch → ch.length ≤ maxSize) := by
  refine ⟨fun ch hch => (chunkText_chunks text maxSize h ch hch).2.2, ?_, ?_, ?_⟩
  · intro R ht hne hlen hover
    rcases cut_cases R maxSize h ht hne hlen with
      ⟨e, hel, i, hocc, him, hcut, hlench⟩ | ⟨_, hle⟩
    · have hi : i = maxSize := by omega
      refine ⟨by omega, by rw [hcut, hi], ⟨e, hel, by rw [← hi]; exact hocc⟩⟩
    · omega
  · intro R ht hne hlen hnone
    rcases cut_cases R maxSize h ht hne hlen with
      ⟨e, hel, i, hocc, him, _, _⟩ | ⟨_, hle⟩
    · rw [hnone e hel i him] at hocc
      exact absurd hocc (by simp)
    · exact hle
  · intro ch hch
    exact chunkTextGo_last ((trim text).length + 1) (trim text) maxSize h (trim_trim text)
      (by omega) ch hch

theorem claim_c3_amended_witness :
    1 ≤ 5 ∧
    ((∀ ch ∈ chunkText "ab cd. e".toList 5, ch.length ≤ 5 + 1) ∧
     (∀ R, trim R = R → R ≠ [] → 5 < R.length →
       5 < (trim (R.take (cutIndexFor R 5))).length →
         (trim (R.take (cutIndexFor R 5))).length = 5 + 1 ∧
         cutIndexFor R 5 = 5 + 2 ∧
         ∃ e ∈ sentenceEnders, occursAt R e 5 = true) ∧
     (∀ R, trim R = R → R ≠ [] → 5 < R.length →
       (∀ e ∈ sentenceEnders, ∀ i, i ≤ 5 → occursAt R e i = false) →
         (trim (R.take (cutIndexFor R 5))).length ≤ 5) ∧
     (∀ ch, (chunkText "ab cd. e".toList 5).getLast? = some ch → ch.length ≤ 5)) :=
  ⟨by decide, claim_c3_amended "ab cd. e".toList 5 (by decide)⟩

/-- C4 counterexample: in "a. ! bcdefgh" with maxSize 6 the nearest preceding
    sentence delimiter within the window is "! " starting at index 3, so the
    claim demands a cut immediately after it at index 5 (first chunk "a. !");
    the code instead cuts at index 3, immediately after the farther delimiter
    ". " at index 1, because the loop compares the start index of "! " against
    the already-updated cut position 3 rather than against the start index 1. -/
theorem claim_c4_counterexample :
    nearestEnderCut "a. ! bcdefgh".toList 6 = some 5 ∧
      cutIndexFor "a. ! bcdefgh".toList 6 = 3 ∧
      chunkText "a. ! bcdefgh".toList 6 =
        ["a.".toList, "!".toList, "bcdefg".toList, "h".toList] := by decide

/-- C4 amended: whenever some sentence-ending delimiter occurs in the window,
    `chunkText` cuts immediately after a delimiter occurrence in the window
    whose start index is within two characters of the nearest one (the fold
    over the fixed ender order may prefer a delimiter starting up to two
    positions before the nearest); and it falls back to the nearest preceding
    whitespace at a positive offset only when no sentence delimiter occurs in
    the window. -/
theorem claim_c4_amended (R : List Char) (m : Nat) :
    ((∃ e ∈ sentenceEnders, ∃ i, i ≤ m ∧ occursAt R e i = true) →
      ∃ e ∈ sentenceEnders, ∃ i : Nat, occursAt R e i = true ∧ i ≤ m ∧
        cutIndexFor R m = i + 2 ∧
        ∀ eb ∈ sentenceEnders, ∀ j, j ≤ m → occursAt R eb j = true → j ≤ i + 2) ∧
    ((∀ e ∈ sentenceEnders, ∀ i, i ≤ m → occursAt R e i = false) →
      (∃ j0, 1 ≤ j0 ∧ j0 ≤ m ∧ occursAt R [' '] j0 = true) →
      ∃ j, occursAt R [' '] j = true ∧ 1 ≤ j ∧ j ≤ m ∧ cutIndexFor R m = j ∧
        ∀ j2, j2 ≤ m → occursAt R [' '] j2 = true → j2 ≤ j) := by
  constructor
  · rintro ⟨e0, he0, i0, hi0, hocc0⟩
    obtain ⟨e, hel, i, hocc, him, hfcval, hub⟩ := findCut_found he0 hi0 hocc0
    have hcut : cutIndexFor R m = i + 2 := by
      simp only [cutIndexFor, hfcval]
      rw [if_neg (by omega)]
      rw [if_neg (by omega)]
      omega
    refine ⟨e, hel, i, hocc, him, hcut, ?_⟩
    intro eb hebl j hj hjo
    have := hub eb hebl j hj hjo
    rw [hfcval] at this
    omega
  · rintro hnone ⟨j0, hj01, hj0m, hocc0⟩
    have hc1 : findCut R m = -1 := findCut_none hnone
    rcases lastIndexOfAux_spec R [' '] m with ⟨_, hall⟩ | ⟨k, hk, hkm, hocc, hmax⟩
    · rw [hall j0 hj0m] at hocc0
      exact absurd hocc0 (by simp)
    · have hk1 : 1 ≤ k := le_trans hj01 (hmax j0 hj0m hocc0)
      have hcut : cutIndexFor R m = k := by
        simp only [cutIndexFor, hc1, if_true]
        rw [lastIndexOfFrom, hk]
        rw [if_neg (show ¬((k : Int) = -1 ∨ (k : Int) = 0) by omega)]
        omega
      exact ⟨k, hocc, hk1, hkm, hcut, hmax⟩

theorem claim_c4_amended_witness :
    (∃ e ∈ sentenceEnders, ∃ i, i ≤ 6 ∧ occursAt "a. ! bcdefgh".toList e i = true) ∧
      (∃ e ∈ sentenceEnders, ∃ i : Nat, occursAt "a. ! bcdefgh".toList e i = true ∧ i ≤ 6 ∧
        cutIndexFor "a. ! bcdefgh".toList 6 = i + 2 ∧
        ∀ eb ∈ sentenceEnders, ∀ j, j ≤ 6 →
          occursAt "a. ! bcdefgh".toList eb j = true → j ≤ i + 2) :=
  ⟨by decide, (claim_c4_amended "a. ! bcdefgh".toList 6).1 (by decide)⟩

/-- C9: for every input string and every maxSize ≥ 1, the `chunkText` loop
    terminates with a finite sequence: its result does not depend on the fuel
    bound once the fuel exceeds the remaining length, and every loop iteration
    on a remainder longer than maxSize removes at least one character from the
    remaining text. -/
theorem claim_c9_termination (text : List Char) (maxSize : Nat) (h : 1 ≤ maxSize) :
    (∀ fuel, (trim text).length < fuel →
      chunkTextGo fuel (trim text) maxSize = chunkText text maxSize) ∧
    (∀ R, trim R = R → R ≠ [] → maxSize < R.length →
      (trim (R.drop (cutIndexFor R maxSize))).length < R.length) := by
  constructor
  · intro fuel hf
    exact chunkTextGo_fuel fuel (trim text) maxSize _ h (trim_trim text) hf (by omega)
  · intro R ht hne hlen
    obtain ⟨hc1, hc2, _⟩ := cut_spec R maxSize h ht hne hlen
    obtain ⟨w, _, _, _, _, hlt⟩ := take_drop_trim_decomp R _ ht hne hc1 hc2
    exact hlt

theorem claim_c9_witness :
    (∀ fuel, (trim "one. two three".toList).length < fuel →
      chunkTextGo fuel (trim "one. two three".toList) 6 = chunkText "one. two three".toList 6) ∧
    (∀ R, trim R = R → R ≠ [] → 6 < R.length →
      (trim (R.drop (cutIndexFor R 6))).length < R.length) :=
  claim_c9_termination "one. two three".toList 6 (by decide)

/-! The export pipeline. Configuration constants of `VoxFreeApp.CONFIG`
    (source lines 13-27). -/

def MAX_TEXT_LENGTH : Nat := 5000

def CHUNK_SIZE : Nat := 200

def RETRY_ATTEMPTS : Nat := 2

def RETRY_DELAY : Nat := 1000

def TIMEOUT_MS : Nat := 10000

def PROXY_URLS : List (List Char) :=
  ["https://api.allorigins.win/raw?url=".toList,
   "https://corsproxy.io/?".toList,
   "https://api.codetabs.com/v1/proxy?quest=".toList]

def TTS_BASE_URL : List Char := "https://translate.google.com/translate_tts".toList

/-- Characters that JavaScript `encodeURIComponent` leaves unescaped. -/
def isUnreservedURIChar (c : Char) : Bool :=
  (65 ≤ c.toNat && c.toNat ≤ 90) || (97 ≤ c.toNat && c.toNat ≤ 122) ||
  (48 ≤ c.toNat && c.toNat ≤ 57) ||
  c = '-' || c = '_' || c = '.' || c = '!' || c = '~' || c = '*' || c = '\x27' ||
  c = '(' || c = ')'

/-- UTF-8 encoding of one character. -/
def utf8Bytes (c : Char) : List Nat :=
  let n := c.toNat
  if n < 128 then [n]
  else if n < 2048 then [192 + n / 64, 128 + n % 64]
  else if n < 65536 then [224 + n / 4096, 128 + (n / 64) % 64, 128 + n % 64]
  else [240 + n / 262144, 128 + (n / 4096) % 64, 128 + (n / 64) % 64, 128 + n % 64]

/-- Upper-case hexadecimal digit. -/
def hexDigit (n : Nat) : Char :=
  if n < 10 then Char.ofNat (48 + n) else Char.ofNat (55 + n)

/-- Percent-encoding of one byte. -/
def percentEncodeByte (b : Nat) : List Char :=
  ['%', hexDigit (b / 16), hexDigit (b % 16)]

/-- JavaScript `encodeURIComponent`. -/
def encodeURIComponent (s : List Char) : List Char :=
  (s.map (fun c => if isUnreservedURIChar c then [c]
    else ((utf8Bytes c).map percentEncodeByte).flatten)).flatten

/-- The unproxied Google TTS request URL built by `fetchAudioWithRetry`
    (source lines 697 and 751). -/
def googleUrl (text lang : List Char) : List Char :=
  TTS_BASE_URL ++ "?ie=UTF-8&tl=".toList ++ encodeURIComponent lang ++
    "&client=tw-ob&q=".toList ++ encodeURIComponent text

/-- The proxied request URL for the proxy endpoint at the given index
    (source line 701). -/
def proxyUrl (text lang : List Char) (proxyIndex : Nat) : List Char :=
  PROXY_URLS.getD proxyIndex [] ++ encodeURIComponent (googleUrl text lang)

/-- Outcome of one network fetch as seen before the timeout race. -/
inductive NetOutcome where
  | response (status : Nat) (body : List Nat)
  | netError
deriving DecidableEq

/-- Result of one transport attempt: elapsed time plus network outcome. An
    attempt whose elapsed time reaches the 10 second abort timer set on line
    706 is observed by the code as an AbortError. -/
structure FetchResult where
  elapsedMs : Nat
  outcome : NetOutcome
deriving DecidableEq

/-- The success test of `fetchAudioWithRetry` (source lines 705-727): an
    aborted request (timeout), a rejected fetch (network error), a non-2xx
    status (`response.ok` false) and an empty body all throw into the same
    catch block, modelled as `none`; a 2xx response with a nonempty body
    returns its bytes. -/
def classify (r : FetchResult) : Option (List Nat) :=
  if TIMEOUT_MS ≤ r.elapsedMs then none
  else
    match r.outcome with
    | NetOutcome.netError => none
    | NetOutcome.response status body =>
      if 200 ≤ status ∧ status ≤ 299 then
        if body.length = 0 then none else some body
      else none

/-- Observable side effects of one export call: the number of transport
    attempts performed, the request URLs fetched in order, the URLs opened via
    `window.open`, the messages shown via `showError`, the blobs saved via
    `downloadBlob`, and the waits inserted via `delay`, all in order. -/
structure EffectLog where
  attempts : Nat
  fetched : List (List Char)
  opened : List (List Char)
  errors : List (List Char)
  downloads : List (List Nat)
  delays : List Nat
deriving DecidableEq

def emptyLog : EffectLog := ⟨0, [], [], [], [], []⟩

def manualFallbackMsg : List Char :=
  ("Unable to download automatically due to network restrictions. " ++
    "The audio has been opened in a new tab where you can play and save it manually.").toList

def longExportFailMsg : List Char :=
  "Failed to process long text. Try shorter text or check your connection.".toList

def shortExportFailMsg : List Char :=
  "Download failed. Please try again or use shorter text.".toList

def invalidInputMsg : List Char := "Please enter valid text to download.".toList

def maxLengthMsg : List Char := "Text exceeds maximum length of 5000 characters.".toList

def showError (st : EffectLog) (msg : List Char) : EffectLog :=
  { st with errors := st.errors ++ [msg] }

def windowOpen (st : EffectLog) (url : List Char) : EffectLog :=
  { st with opened := st.opened ++ [url] }

def downloadBlob (st : EffectLog) (blob : List Nat) : EffectLog :=
  { st with downloads := st.downloads ++ [blob] }

def logDelay (st : EffectLog) (ms : Nat) : EffectLog :=
  { st with delays := st.delays ++ [ms] }

/-- The recursion of `fetchAudioWithRetry(text, lang, attempt, proxyIndex)`
    (source lines 695-757). The transport `tr` maps the global attempt counter
    to that attempt's result. On failure: advance to the next proxy with the
    attempt number unchanged; else, below the retry budget, wait RETRY_DELAY,
    reset to the first proxy and increment the attempt number; else open the
    unproxied URL, show the manual-fallback message and resolve to `none`.
    The fuel only bounds the recursion depth; the initial call performs at
    most PROXY_URLS.length * RETRY_ATTEMPTS = 6 fetches, so `fetchFuel = 12`
    is never exhausted. -/
def fetchGo (tr : Nat → FetchResult) (text lang : List Char) :
    Nat → Nat → Nat → EffectLog → Option (List Nat) × EffectLog
  | 0, _, _, st => (none, st)
  | fuel + 1, attempt, proxyIndex, st =>
    let st1 : EffectLog :=
      { st with attempts := st.attempts + 1,
                fetched := st.fetched ++ [proxyUrl text lang proxyIndex] }
    match classify (tr st.attempts) with
    | some bytes => (some bytes, st1)
    | none =>
      if proxyIndex + 1 < PROXY_URLS.length then
        fetchGo tr text lang fuel attempt (proxyIndex + 1) st1
      else if attempt < RETRY_ATTEMPTS then
        fetchGo tr text lang fuel (attempt + 1) 0 (logDelay st1 RETRY_DELAY)
      else
        (none, showError (windowOpen st1 (googleUrl text lang)) manualFallbackMsg)

def fetchFuel : Nat := (RETRY_ATTEMPTS + 1) * (PROXY_URLS.length + 1)

/-- `fetchAudioWithRetry(text, lang)` with the default arguments
    attempt = 1, proxyIndex = 0 (source line 695). -/
def fetchAudioWithRetry (tr : Nat → FetchResult) (text lang : List Char) (st : EffectLog) :
    Option (List Nat) × EffectLog :=
  fetchGo tr text lang fetchFuel 1 0 st

/-- JavaScript `lang.split('-')[0]` (source lines 650 and 781). -/
def shortLang (lang : List Char) : List Char :=
  lang.takeWhile (fun c => c != '-')

/-- The per-chunk loop of `handleLongExport` (source lines 786-803): strictly
    sequential, skipping whitespace-only chunks, accumulating blobs in order,
    with a 500 ms delay between successive chunks; `Except.error` models the
    thrown `Failed to process chunk` error, caught by `handleLongExport`. -/
def exportChunksGo (tr : Nat → FetchResult) (lang : List Char) :
    List (List Char) → List (List Nat) → EffectLog →
      Except Unit (List (List Nat)) × EffectLog
  | [], acc, st => (Except.ok acc, st)
  | chunk :: rest, acc, st =>
    if trim chunk = [] then exportChunksGo tr lang rest acc st
    else
      match fetchAudioWithRetry tr chunk lang st with
      | (some bytes, st1) =>
        exportChunksGo tr lang rest (acc ++ [bytes])
          (if rest = [] then st1 else logDelay st1 500)
      | (none, st1) => (Except.error (), st1)

inductive ExportOutcome where
  | done
  | failed
deriving DecidableEq

/-- `handleLongExport(text, format)` (source lines 775-815): chunk the text,
    fetch every chunk sequentially, concatenate the blobs and download once;
    or catch the per-chunk failure and show an error without downloading.
    Returning an `ExportOutcome` instead of an exception models that the
    function catches the thrown error and resolves. -/
def handleLongExport (tr : Nat → FetchResult) (text lang : List Char) (st : EffectLog) :
    ExportOutcome × EffectLog :=
  match exportChunksGo tr (shortLang lang) (chunkText text CHUNK_SIZE) [] st with
  | (Except.ok blobs, st1) => (ExportOutcome.done, downloadBlob st1 blobs.flatten)
  | (Except.error _, st1) => (ExportOutcome.failed, showError st1 longExportFailMsg)

/-- `handleExport(format)` (source lines 633-666) together with
    `validateInput()` (source lines 380-394): reject empty or over-length
    input, route long text to `handleLongExport`, otherwise perform a single
    fetch and download its blob, or show an error. -/
def handleExport (tr : Nat → FetchResult) (rawText lang : List Char) (st : EffectLog) :
    ExportOutcome × EffectLog :=
  if (trim rawText).length = 0 then (ExportOutcome.failed, showError st invalidInputMsg)
  else if MAX_TEXT_LENGTH < (trim rawText).length then
    (ExportOutcome.failed, showError (showError st maxLengthMsg) invalidInputMsg)
  else if CHUNK_SIZE < (trim rawText).length then
    handleLongExport tr (trim rawText) lang st
  else
    match fetchAudioWithRetry tr (trim rawText) (shortLang lang) st with
    | (some bytes, st1) => (ExportOutcome.done, downloadBlob st1 bytes)
    | (none, st1) => (ExportOutcome.failed, showError st1 shortExportFailMsg)

/-! Step lemmas for the fetch ladder. -/

theorem fetchGo_success (tr : Nat → FetchResult) (text lang : List Char)
    (fuel attempt proxyIndex : Nat) (st : EffectLog) (bytes : List Nat)
    (hc : classify (tr st.attempts) = some bytes) :
    fetchGo tr text lang (fuel + 1) attempt proxyIndex st =
      (some bytes, { st with
        attempts := st.attempts + 1
        fetched := st.fetched ++ [proxyUrl text lang proxyIndex] }) := by
  simp only [fetchGo, hc]

theorem fetchGo_fail_advance (tr : Nat → FetchResult) (text lang : List Char)
    (fuel attempt proxyIndex : Nat) (st : EffectLog)
    (hc : classify (tr st.attempts) = none) (hp : proxyIndex + 1 < PROXY_URLS.length) :
    fetchGo tr text lang (fuel + 1) attempt proxyIndex st =
      fetchGo tr text lang fuel attempt (proxyIndex + 1)
        { st with
          attempts := st.attempts + 1
          fetched := st.fetched ++ [proxyUrl text lang proxyIndex] } := by
  simp only [fetchGo, hc]
  rw [if_pos hp]

theorem fetchGo_fail_retry (tr : Nat → FetchResult) (text lang : List Char)
    (fuel attempt proxyIndex : Nat) (st : EffectLog)
    (hc : classify (tr st.attempts) = none) (hp : ¬(proxyIndex + 1 < PROXY_URLS.length))
    (ha : attempt < RETRY_ATTEMPTS) :
    fetchGo tr text lang (fuel + 1) attempt proxyIndex st =
      fetchGo tr text lang fuel (attempt + 1) 0
        (logDelay { st with
          attempts := st.attempts + 1
          fetched := st.fetched ++ [proxyUrl text lang proxyIndex] } RETRY_DELAY) := by
  simp only [fetchGo, hc]
  rw [if_neg hp, if_pos ha]

theorem fetchGo_fail_exhaust (tr : Nat → FetchResult) (text lang : List Char)
    (fuel attempt proxyIndex : Nat) (st : EffectLog)
    (hc : classify (tr st.attempts) = none) (hp : ¬(proxyIndex + 1 < PROXY_URLS.length))
    (ha : ¬(attempt < RETRY_ATTEMPTS)) :
    fetchGo tr text lang (fuel + 1) attempt proxyIndex st =
      (none, showError (windowOpen { st with
        attempts := st.attempts + 1
        fetched := st.fetched ++ [proxyUrl text lang proxyIndex] } (googleUrl text lang))
        manualFallbackMsg) := by
  simp only [fetchGo, hc]
  rw [if_neg hp, if_neg ha]

/-- Full trace of the ladder when every attempt fails: six fetches in ladder
    order (proxies 0,1,2 at attempt 1, then proxies 0,1,2 at attempt 2), one
    retry delay, one `window.open` of the unproxied URL, one error message,
    and a `none` result. -/
theorem fetchAudioWithRetry_exhausted (tr : Nat → FetchResult) (text lang : List Char)
    (h : ∀ n, n < 6 → classify (tr n) = none) :
    fetchAudioWithRetry tr text lang emptyLog =
      (none,
        ⟨6,
         [proxyUrl text lang 0, proxyUrl text lang 1, proxyUrl text lang 2,
          proxyUrl text lang 0, proxyUrl text lang 1, proxyUrl text lang 2],
         [googleUrl text lang], [manualFallbackMsg], [], [RETRY_DELAY]⟩) := by
  rw [fetchAudioWithRetry]
  rw [show fetchFuel = 11 + 1 from rfl]
  rw [fetchGo_fail_advance tr text lang 11 1 0 emptyLog (h 0 (by omega)) (by decide)]
  rw [show (11 : Nat) = 10 + 1 from rfl]
  rw [fetchGo_fail_advance tr text lang 10 1 1 _ (h 1 (by omega)) (by decide)]
  rw [show (10 : Nat) = 9 + 1 from rfl]
  rw [fetchGo_fail_retry tr text lang 9 1 2 _ (h 2 (by omega)) (by decide) (by decide)]
  rw [show (9 : Nat) = 8 + 1 from rfl]
  rw [fetchGo_fail_advance tr text lang 8 2 0 _ (h 3 (by omega)) (by decide)]
  rw [show (8 : Nat) = 7 + 1 from rfl]
  rw [fetchGo_fail_advance tr text lang 7 2 1 _ (h 4 (by omega)) (by decide)]
  rw [show (7 : Nat) = 6 + 1 from rfl]
  rw [fetchGo_fail_exhaust tr text lang 6 2 2 _ (h 5 (by omega)) (by decide) (by decide)]
  rfl

/-- A successful ladder run returns the bytes of its first successful
    transport attempt, performs exactly one more attempt than the failures
    before it, and never touches the download log. -/
theorem fetchGo_some (tr : Nat → FetchResult) (text lang : List Char) :
    ∀ (fuel attempt proxyIndex : Nat) (st : EffectLog) (b : List Nat) (st1 : EffectLog),
      fetchGo tr text lang fuel attempt proxyIndex st = (some b, st1) →
      ∃ n, st.attempts ≤ n ∧ st1.attempts = n + 1 ∧ classify (tr n) = some b ∧
        st1.downloads = st.downloads := by
  intro fuel
  induction fuel with
  | zero =>
    intro attempt proxyIndex st b st1 h
    simp only [fetchGo] at h
    exact absurd (congrArg Prod.fst h) (by simp)
  | succ fuel ih =>
    intro attempt proxyIndex st b st1 h
    simp only [fetchGo] at h
    cases hcl : classify (tr st.attempts) with
    | some bytes =>
      rw [hcl] at h
      rw [Prod.mk.injEq] at h
      obtain ⟨h1, h2⟩ := h
      refine ⟨st.attempts, le_refl _, ?_, ?_, ?_⟩
      · rw [← h2]
      · rw [hcl, h1]
      · rw [← h2]
    | none =>
      rw [hcl] at h
      split_ifs at h with hp ha
      · obtain ⟨n, hn1, hn2, hn3, hn4⟩ := ih _ _ _ _ _ h
        exact ⟨n, by simp at hn1; omega, hn2, hn3, by rw [hn4]⟩
      · obtain ⟨n, hn1, hn2, hn3, hn4⟩ := ih _ _ _ _ _ h
        exact ⟨n, by simp [logDelay] at hn1; omega, hn2, hn3, by rw [hn4]; simp [logDelay]⟩
      · exact absurd (congrArg Prod.fst h) (by simp [showError, windowOpen])

/-- The fetch ladder never writes to the download log. -/
theorem fetchGo_downloads (tr : Nat → FetchResult) (text lang : List Char) :
    ∀ (fuel attempt proxyIndex : Nat) (st : EffectLog),
      ((fetchGo tr text lang fuel attempt proxyIndex st).2).downloads = st.downloads := by
  intro fuel
  induction fuel with
  | zero => intro attempt proxyIndex st; rfl
  | succ fuel ih =>
    intro attempt proxyIndex st
    simp only [fetchGo]
    cases hcl : classify (tr st.attempts) with
    | some bytes => rfl
    | none =>
      split_ifs with hp ha
      · rw [ih]
      · rw [ih]
        simp [logDelay]
      · simp [showError, windowOpen]

/-- The chunk loop never writes to the download log. -/
theorem exportChunksGo_downloads (tr : Nat → FetchResult) (lang : List Char) :
    ∀ (chunks : List (List Char)) (acc : List (List Nat)) (st : EffectLog),
      ((exportChunksGo tr lang chunks acc st).2).downloads = st.downloads := by
  intro chunks
  induction chunks with
  | nil => intro acc st; rfl
  | cons c rest ih =>
    intro acc st
    simp only [exportChunksGo]
    by_cases hskip : trim c = []
    · rw [if_pos hskip]
      exact ih acc st
    · rw [if_neg hskip]
      cases hf : fetchAudioWithRetry tr c lang st with
      | mk res st1 =>
        have hd1 : st1.downloads = st.downloads := by
          have := fetchGo_downloads tr c lang fetchFuel 1 0 st
          rw [fetchAudioWithRetry] at hf
          rw [hf] at this
          exact this
        cases res with
        | some bytes =>
          rw [ih]
          by_cases hrest : rest = []
          · rw [if_pos hrest]
            exact hd1
          · rw [if_neg hrest]
            simp [logDelay, hd1]
        | none => exact hd1

/-- A fully successful chunk loop: one strictly increasing successful
    transport attempt per chunk, in chunk order, and the accumulated blobs are
    exactly the successful bytes appended in that order. -/
theorem exportChunksGo_ok (tr : Nat → FetchResult) (lang : List Char) :
    ∀ (chunks : List (List Char)) (acc : List (List Nat)) (st : EffectLog)
      (blobs : List (List Nat)) (st2 : EffectLog),
      (∀ c ∈ chunks, trim c = c ∧ c ≠ []) →
      exportChunksGo tr lang chunks acc st = (Except.ok blobs, st2) →
      ∃ ns : List Nat, ns.length = chunks.length ∧
        List.Chain' (· < ·) ns ∧
        (∀ n ∈ ns, st.attempts ≤ n ∧ (classify (tr n)).isSome = true) ∧
        blobs = acc ++ ns.map (fun n => (classify (tr n)).getD []) := by
  intro chunks
  induction chunks with
  | nil =>
    intro acc st blobs st2 _ h
    simp only [exportChunksGo] at h
    rw [Prod.mk.injEq] at h
    obtain ⟨h1, _⟩ := h
    have : acc = blobs := by
      have := h1
      injection this
    exact ⟨[], rfl, List.chain'_nil, by simp, by simp [this]⟩
  | cons c rest ih =>
    intro acc st blobs st2 hprops h
    obtain ⟨hct, hcne⟩ := hprops c (List.mem_cons_self c rest)
    simp only [exportChunksGo] at h
    rw [if_neg (by rw [hct]; exact hcne)] at h
    cases hf : fetchAudioWithRetry tr c lang st with
    | mk res st1 =>
      rw [hf] at h
      cases res with
      | none =>
        exact absurd (congrArg Prod.fst h) (by simp)
      | some bytes =>
        obtain ⟨n0, hn01, hn02, hn03, _⟩ := fetchGo_some tr c lang fetchFuel 1 0 st bytes st1 hf
        obtain ⟨ns, hlen, hchain, hmem, hacc⟩ :=
          ih (acc ++ [bytes]) (if rest = [] then st1 else logDelay st1 500) blobs st2
            (fun x hx => hprops x (List.mem_cons_of_mem c hx)) h
        have hattempts2 : (if rest = [] then st1 else logDelay st1 500).attempts = n0 + 1 := by
          split_ifs
          · exact hn02
          · simp [logDelay, hn02]
        refine ⟨n0 :: ns, by simp [hlen], ?_, ?_, ?_⟩
        · rw [List.chain'_cons']
          refine ⟨?_, hchain⟩
          intro b hb
          have hbmem : b ∈ ns := List.mem_of_mem_head? hb
          have := (hmem b hbmem).1
          rw [hattempts2] at this
          omega
        · intro n hn
          rcases List.mem_cons.mp hn with rfl | hn2
          · exact ⟨hn01, by rw [hn03]; rfl⟩
          · have := hmem n hn2
            rw [hattempts2] at this
            exact ⟨by omega, this.2⟩
        · rw [hacc, List.map_cons]
          have : (classify (tr n0)).getD [] = bytes := by rw [hn03]; rfl
          rw [this]
          simp

/-- The ladder behaves identically under transports with the same
    classification of every attempt. -/
theorem fetchGo_congr (tr1 tr2 : Nat → FetchResult)
    (h : ∀ n, classify (tr1 n) = classify (tr2 n)) (text lang : List Char) :
    ∀ (fuel attempt proxyIndex : Nat) (st : EffectLog),
      fetchGo tr1 text lang fuel attempt proxyIndex st =
        fetchGo tr2 text lang fuel attempt proxyIndex st := by
  intro fuel
  induction fuel with
  | zero => intro a p st; rfl
  | succ fuel ih =>
    intro a p st
    simp only [fetchGo]
    rw [h st.attempts]
    cases classify (tr2 st.attempts) with
    | some bytes => rfl
    | none =>
      split_ifs with hp ha
      · exact ih a (p + 1) _
      · exact ih (a + 1) 0 _
      · rfl

/-- Fake transports used by the witnesses. -/
def failingTransport : Nat → FetchResult := fun _ => ⟨0, NetOutcome.response 503 []⟩

def downTransport : Nat → FetchResult := fun _ => ⟨0, NetOutcome.netError⟩

def okTransport : Nat → FetchResult := fun _ => ⟨0, NetOutcome.response 200 [7]⟩

def secondProxyTransport : Nat → FetchResult :=
  fun k => if k = 0 then ⟨0, NetOutcome.netError⟩ else ⟨0, NetOutcome.response 200 [7]⟩

/-- C2: when every attempt fails, `fetchAudioWithRetry` performs exactly
    k * r = PROXY_URLS.length * RETRY_ATTEMPTS = 3 * 2 = 6 fetch attempts
    (proxies 0,1,2 at attempt 1, then proxies 0,1,2 at attempt 2), then
    triggers the manual-fallback side effect exactly once (one `window.open`
    of the unproxied URL plus one error message) and resolves to `none`
    rather than raising an unhandled fault. -/
theorem claim_c2_exhausted_attempts (tr : Nat → FetchResult) (text lang : List Char)
    (h : ∀ n, n < PROXY_URLS.length * RETRY_ATTEMPTS → classify (tr n) = none) :
    fetchAudioWithRetry tr text lang emptyLog =
      (none,
        ⟨PROXY_URLS.length * RETRY_ATTEMPTS,
         [proxyUrl text lang 0, proxyUrl text lang 1, proxyUrl text lang 2,
          proxyUrl text lang 0, proxyUrl text lang 1, proxyUrl text lang 2],
         [googleUrl text lang], [manualFallbackMsg], [], [RETRY_DELAY]⟩) :=
  fetchAudioWithRetry_exhausted tr text lang h

theorem claim_c2_witness :
    fetchAudioWithRetry failingTransport "hi".toList "en".toList emptyLog =
      (none,
        ⟨PROXY_URLS.length * RETRY_ATTEMPTS,
         [proxyUrl "hi".toList "en".toList 0, proxyUrl "hi".toList "en".toList 1,
          proxyUrl "hi".toList "en".toList 2, proxyUrl "hi".toList "en".toList 0,
          proxyUrl "hi".toList "en".toList 1, proxyUrl "hi".toList "en".toList 2],
         [googleUrl "hi".toList "en".toList], [manualFallbackMsg], [], [RETRY_DELAY]⟩) :=
  claim_c2_exhausted_attempts failingTransport "hi".toList "en".toList (fun _ _ => rfl)

/-- C6: attempts follow the fixed ladder order. The fetched-URL trace of a run
    whose first success is global attempt n is exactly proxies
    0,1,2,0,1,2,... (index k % 3): the proxy index advances by one with the
    attempt number unchanged, and when the proxy list is exhausted below the
    retry budget the index resets to 0 while the attempt number increments
    (visible as the retry delay once n reaches the second pass). The ladder
    stops at the first success, after exactly n + 1 attempts; in particular a
    transport succeeding on proxy ordinal 2 of 3 in the first pass yields
    exactly 2 attempts. -/
theorem claim_c6_ladder_order (tr : Nat → FetchResult) (text lang : List Char)
    (n : Nat) (bytes : List Nat) (hn : n < PROXY_URLS.length * RETRY_ATTEMPTS)
    (hfail : ∀ k, k < n → classify (tr k) = none)
    (hsucc : classify (tr n) = some bytes) :
    fetchAudioWithRetry tr text lang emptyLog =
      (some bytes,
        ⟨n + 1,
         (List.range (n + 1)).map (fun k => proxyUrl text lang (k % PROXY_URLS.length)),
         [], [], [],
         if n < PROXY_URLS.length then [] else [RETRY_DELAY]⟩) := by
  have hn6 : n < 6 := hn
  interval_cases n
  · rw [fetchAudioWithRetry, show fetchFuel = 11 + 1 from rfl,
      fetchGo_success tr text lang 11 1 0 emptyLog bytes hsucc]
    rfl
  · rw [fetchAudioWithRetry, show fetchFuel = 11 + 1 from rfl,
      fetchGo_fail_advance tr text lang 11 1 0 emptyLog (hfail 0 (by omega)) (by decide),
      show (11 : Nat) = 10 + 1 from rfl,
      fetchGo_success tr text lang 10 1 1 _ bytes hsucc]
    rfl
  · rw [fetchAudioWithRetry, show fetchFuel = 11 + 1 from rfl,
      fetchGo_fail_advance tr text lang 11 1 0 emptyLog (hfail 0 (by omega)) (by decide),
      show (11 : Nat) = 10 + 1 from rfl,
      fetchGo_fail_advance tr text lang 10 1 1 _ (hfail 1 (by omega)) (by decide),
      show (10 : Nat) = 9 + 1 from rfl,
      fetchGo_success tr text lang 9 1 2 _ bytes hsucc]
    rfl
  · rw [fetchAudioWithRetry, show fetchFuel = 11 + 1 from rfl,
      fetchGo_fail_advance tr text lang 11 1 0 emptyLog (hfail 0 (by omega)) (by decide),
      show (11 : Nat) = 10 + 1 from rfl,
      fetchGo_fail_advance tr text lang 10 1 1 _ (hfail 1 (by omega)) (by decide),
      show (10 : Nat) = 9 + 1 from rfl,
      fetchGo_fail_retry tr text lang 9 1 2 _ (hfail 2 (by omega)) (by decide) (by decide),
      show (9 : Nat) = 8 + 1 from rfl,
      fetchGo_success tr text lang 8 2 0 _ bytes hsucc]
    rfl
  · rw [fetchAudioWithRetry, show fetchFuel = 11 + 1 from rfl,
      fetchGo_fail_advance tr text lang 11 1 0 emptyLog (hfail 0 (by omega)) (by decide),
      show (11 : Nat) = 10 + 1 from rfl,
      fetchGo_fail_advance tr text lang 10 1 1 _ (hfail 1 (by omega)) (by decide),
      show (10 : Nat) = 9 + 1 from rfl,
      fetchGo_fail_retry tr text lang 9 1 2 _ (hfail 2 (by omega)) (by decide) (by decide),
      show (9 : Nat) = 8 + 1 from rfl,
      fetchGo_fail_advance tr text lang 8 2 0 _ (hfail 3 (by omega)) (by decide),
      show (8 : Nat) = 7 + 1 from rfl,
      fetchGo_success tr text lang 7 2 1 _ bytes hsucc]
    rfl
  · rw [fetchAudioWithRetry, show fetchFuel = 11 + 1 from rfl,
      fetchGo_fail_advance tr text lang 11 1 0 emptyLog (hfail 0 (by omega)) (by decide),
      show (11 : Nat) = 10 + 1 from rfl,
      fetchGo_fail_advance tr text lang 10 1 1 _ (hfail 1 (by omega)) (by decide),
      show (10 : Nat) = 9 + 1 from rfl,
      fetchGo_fail_retry tr text lang 9 1 2 _ (hfail 2 (by omega)) (by decide) (by decide),
      show (9 : Nat) = 8 + 1 from rfl,
      fetchGo_fail_advance tr text lang 8 2 0 _ (hfail 3 (by omega)) (by decide),
      show (8 : Nat) = 7 + 1 from rfl,
      fetchGo_fail_advance tr text lang 7 2 1 _ (hfail 4 (by omega)) (by decide),
      show (7 : Nat) = 6 + 1 from rfl,
      fetchGo_success tr text lang 6 2 2 _ bytes hsucc]
    rfl

theorem claim_c6_witness :
    fetchAudioWithRetry secondProxyTransport "hi".toList "en".toList emptyLog =
      (some [7],
        ⟨1 + 1,
         (List.range (1 + 1)).map
           (fun k => proxyUrl "hi".toList "en".toList (k % PROXY_URLS.length)),
         [], [], [],
         if 1 < PROXY_URLS.length then [] else [RETRY_DELAY]⟩) :=
  claim_c6_ladder_order secondProxyTransport "hi".toList "en".toList 1 [7] (by decide)
    (fun k hk => by interval_cases k; rfl) rfl

/-- C5: when the ladder of the first chunk is exhausted, the pipeline opens
    the unproxied target URL exactly once, shows the user-facing notifications
    (the manual-fallback message followed by the long-export failure message),
    downloads nothing, aborts without attempting any remaining chunk (exactly
    6 attempts occur in total, all for the first chunk), and the export call
    resolves to a failed outcome instead of propagating the thrown error. -/
theorem claim_c5_exhaustion_fallback (tr : Nat → FetchResult) (text lang : List Char)
    (hfail : ∀ n, classify (tr n) = none)
    (hne : chunkText text CHUNK_SIZE ≠ []) :
    handleLongExport tr text lang emptyLog =
      (ExportOutcome.failed,
        ⟨6,
         [proxyUrl ((chunkText text CHUNK_SIZE).headI) (shortLang lang) 0,
          proxyUrl ((chunkText text CHUNK_SIZE).headI) (shortLang lang) 1,
          proxyUrl ((chunkText text CHUNK_SIZE).headI) (shortLang lang) 2,
          proxyUrl ((chunkText text CHUNK_SIZE).headI) (shortLang lang) 0,
          proxyUrl ((chunkText text CHUNK_SIZE).headI) (shortLang lang) 1,
          proxyUrl ((chunkText text CHUNK_SIZE).headI) (shortLang lang) 2],
         [googleUrl ((chunkText text CHUNK_SIZE).headI) (shortLang lang)],
         [manualFallbackMsg, longExportFailMsg], [], [RETRY_DELAY]⟩) := by
  obtain ⟨c0, rest, hck⟩ : ∃ c0 rest, chunkText text CHUNK_SIZE = c0 :: rest := by
    cases h : chunkText text CHUNK_SIZE with
    | nil => exact absurd h hne
    | cons a b => exact ⟨a, b, rfl⟩
  have hprops := chunkText_chunks text CHUNK_SIZE (by decide) c0
    (by rw [hck]; exact List.mem_cons_self c0 rest)
  rw [handleLongExport, hck]
  have hfetch := fetchAudioWithRetry_exhausted tr c0 (shortLang lang) (fun n _ => hfail n)
  simp only [exportChunksGo]
  rw [if_neg (by rw [hprops.1]; exact hprops.2.1)]
  rw [hfetch]
  rfl

theorem claim_c5_witness :
    handleLongExport downTransport "hi".toList "en".toList emptyLog =
      (ExportOutcome.failed,
        ⟨6,
         [proxyUrl ((chunkText "hi".toList CHUNK_SIZE).headI) (shortLang "en".toList) 0,
          proxyUrl ((chunkText "hi".toList CHUNK_SIZE).headI) (shortLang "en".toList) 1,
          proxyUrl ((chunkText "hi".toList CHUNK_SIZE).headI) (shortLang "en".toList) 2,
          proxyUrl ((chunkText "hi".toList CHUNK_SIZE).headI) (shortLang "en".toList) 0,
          proxyUrl ((chunkText "hi".toList CHUNK_SIZE).headI) (shortLang "en".toList) 1,
          proxyUrl ((chunkText "hi".toList CHUNK_SIZE).headI) (shortLang "en".toList) 2],
         [googleUrl ((chunkText "hi".toList CHUNK_SIZE).headI) (shortLang "en".toList)],
         [manualFallbackMsg, longExportFailMsg], [], [RETRY_DELAY]⟩) :=
  claim_c5_exhaustion_fallback downTransport "hi".toList "en".toList (fun _ => rfl) (by decide)

/-- C7: chunks are processed strictly sequentially and each returned blob is
    appended in chunk sequence order: whenever `handleLongExport` succeeds,
    there is one successful transport attempt per chunk, with strictly
    increasing global attempt indices (chunk order), and the single downloaded
    blob is exactly the concatenation of those per-chunk bytes in that order,
    regardless of which proxy served which chunk or how many retries each
    chunk needed. -/
theorem claim_c7_ordered_assembly (tr : Nat → FetchResult) (text lang : List Char)
    (log : EffectLog)
    (h : handleLongExport tr text lang emptyLog = (ExportOutcome.done, log)) :
    ∃ ns : List Nat, ns.length = (chunkText text CHUNK_SIZE).length ∧
      List.Chain' (· < ·) ns ∧
      (∀ n ∈ ns, (classify (tr n)).isSome = true) ∧
      log.downloads = [(ns.map (fun n => (classify (tr n)).getD [])).flatten] := by
  rw [handleLongExport] at h
  cases hres : exportChunksGo tr (shortLang lang) (chunkText text CHUNK_SIZE) [] emptyLog with
  | mk res st1 =>
    rw [hres] at h
    cases res with
    | error e => exact absurd (congrArg Prod.fst h) (by simp)
    | ok blobs =>
      have hlog : downloadBlob st1 blobs.flatten = log := congrArg Prod.snd h
      obtain ⟨ns, hlen, hchain, hmem, hacc⟩ :=
        exportChunksGo_ok tr (shortLang lang) (chunkText text CHUNK_SIZE) [] emptyLog blobs st1
          (fun c hc => ⟨(chunkText_chunks text CHUNK_SIZE (by decide) c hc).1,
            (chunkText_chunks text CHUNK_SIZE (by decide) c hc).2.1⟩) hres
      have hd1 : st1.downloads = [] := by
        have := exportChunksGo_downloads tr (shortLang lang) (chunkText text CHUNK_SIZE) [] emptyLog
        rw [hres] at this
        exact this
      refine ⟨ns, hlen, hchain, fun n hn => (hmem n hn).2, ?_⟩
      rw [← hlog]
      show st1.downloads ++ [blobs.flatten] = _
      rw [hd1, hacc]
      simp

theorem claim_c7_witness :
    ∃ ns : List Nat, ns.length = (chunkText "hi".toList CHUNK_SIZE).length ∧
      List.Chain' (· < ·) ns ∧
      (∀ n ∈ ns, (classify (okTransport n)).isSome = true) ∧
      (⟨1, [proxyUrl "hi".toList (shortLang "en".toList) 0], [], [], [[7]], []⟩ :
          EffectLog).downloads =
        [(ns.map (fun n => (classify (okTransport n)).getD [])).flatten] :=
  claim_c7_ordered_assembly okTransport "hi".toList "en".toList
    ⟨1, [proxyUrl "hi".toList (shortLang "en".toList) 0], [], [], [[7]], []⟩ rfl

/-- C8: a non-2xx status, a network error, a request reaching the fixed
    10 second timeout and a zero-length body are all classified as the same
    failure, and the entire ladder behaves identically under any two
    transports whose attempts classify equally, so every failure kind feeds
    the same proxy-advance/retry fallback ladder. -/
theorem claim_c8_uniform_failure :
    (∀ t s b, ¬(200 ≤ s ∧ s ≤ 299) →
      classify ⟨t, NetOutcome.response s b⟩ = none) ∧
    (∀ t, classify ⟨t, NetOutcome.netError⟩ = none) ∧
    (∀ t o, TIMEOUT_MS ≤ t → classify ⟨t, o⟩ = none) ∧
    (∀ t s, classify ⟨t, NetOutcome.response s []⟩ = none) ∧
    (∀ tr1 tr2, (∀ n, classify (tr1 n) = classify (tr2 n)) →
      ∀ text lang st, fetchAudioWithRetry tr1 text lang st =
        fetchAudioWithRetry tr2 text lang st) := by
  refine ⟨?_, ?_, ?_, ?_, ?_⟩
  · intro t s b hs
    simp [classify, hs]
  · intro t
    simp [classify]
  · intro t o ht
    simp [classify, ht]
  · intro t s
    simp [classify]
  · intro tr1 tr2 hcl text lang st
    rw [fetchAudioWithRetry, fetchAudioWithRetry]
    exact fetchGo_congr tr1 tr2 hcl text lang fetchFuel 1 0 st

theorem claim_c8_witness :
    classify ⟨0, NetOutcome.response 503 [1]⟩ = none ∧
    classify ⟨0, NetOutcome.netError⟩ = none ∧
    classify ⟨10000, NetOutcome.response 200 [1]⟩ = none ∧
    classify ⟨0, NetOutcome.response 200 []⟩ = none ∧
    fetchAudioWithRetry failingTransport "a".toList "en".toList emptyLog =
      fetchAudioWithRetry downTransport "a".toList "en".toList emptyLog :=
  ⟨claim_c8_uniform_failure.1 0 503 [1] (by decide),
   claim_c8_uniform_failure.2.1 0,
   claim_c8_uniform_failure.2.2.1 10000 (NetOutcome.response 200 [1]) (by decide),
   claim_c8_uniform_failure.2.2.2.1 0 200,
   claim_c8_uniform_failure.2.2.2.2 failingTransport downTransport (fun _ => rfl)
     "a".toList "en".toList emptyLog⟩

/-- C10: in one export call the file-save primitive `downloadBlob` is invoked
    at most once, never on a failed outcome, only on a fully successful run,
    and for the long path the single saved blob is the concatenation of one
    blob per chunk (never a partial subset). -/
theorem claim_c10_download_atomicity (tr : Nat → FetchResult) (rawText lang : List Char)
    (outcome : ExportOutcome) (log : EffectLog)
    (h : handleExport tr rawText lang emptyLog = (outcome, log)) :
    log.downloads.length ≤ 1 ∧
    (outcome = ExportOutcome.failed → log.downloads = []) ∧
    (∀ b, log.downloads = [b] → outcome = ExportOutcome.done) ∧
    (CHUNK_SIZE < (trim rawText).length → ∀ b, log.downloads = [b] →
      ∃ ns : List Nat, ns.length = (chunkText (trim rawText) CHUNK_SIZE).length ∧
        b = (ns.map (fun n => (classify (tr n)).getD [])).flatten) := by
  rw [handleExport] at h
  split_ifs at h with h0 hmax hlong
  · rw [Prod.mk.injEq] at h
    obtain ⟨ho, hl⟩ := h
    have hld : log.downloads = [] := by rw [← hl]; rfl
    refine ⟨by rw [hld]; simp, fun _ => hld, ?_, ?_⟩
    · intro b hb
      rw [hld] at hb
      exact absurd hb (by simp)
    · intro _ b hb
      rw [hld] at hb
      exact absurd hb (by simp)
  · rw [Prod.mk.injEq] at h
    obtain ⟨ho, hl⟩ := h
    have hld : log.downloads = [] := by rw [← hl]; rfl
    refine ⟨by rw [hld]; simp, fun _ => hld, ?_, ?_⟩
    · intro b hb
      rw [hld] at hb
      exact absurd hb (by simp)
    · intro _ b hb
      rw [hld] at hb
      exact absurd hb (by simp)
  · rw [handleLongExport] at h
    cases hres : exportChunksGo tr (shortLang lang) (chunkText (trim rawText) CHUNK_SIZE) []
        emptyLog with
    | mk res st1 =>
      rw [hres] at h
      have hd1 : st1.downloads = [] := by
        have := exportChunksGo_downloads tr (shortLang lang)
          (chunkText (trim rawText) CHUNK_SIZE) [] emptyLog
        rw [hres] at this
        exact this
      cases res with
      | ok blobs =>
        have ho : ExportOutcome.done = outcome := congrArg Prod.fst h
        have hl : downloadBlob st1 blobs.flatten = log := congrArg Prod.snd h
        have hld : log.downloads = [blobs.flatten] := by
          rw [← hl]
          show st1.downloads ++ [blobs.flatten] = _
          rw [hd1]
          rfl
        refine ⟨by rw [hld]; simp, ?_, fun b _ => ho.symm, ?_⟩
        · intro hfld
          rw [← ho] at hfld
          exact absurd hfld (by simp)
        · intro _ b hb
          rw [hld] at hb
          have hbval : b = blobs.flatten := by
            have := List.cons.injEq .. ▸ hb
            exact this.1.symm
          obtain ⟨ns, hlen, _, _, hacc⟩ :=
            exportChunksGo_ok tr (shortLang lang) (chunkText (trim rawText) CHUNK_SIZE) []
              emptyLog blobs st1
              (fun c hc => ⟨(chunkText_chunks (trim rawText) CHUNK_SIZE (by decide) c hc).1,
                (chunkText_chunks (trim rawText) CHUNK_SIZE (by decide) c hc).2.1⟩) hres
          refine ⟨ns, hlen, ?_⟩
          rw [hbval, hacc]
          simp
      | error e =>
        have ho : ExportOutcome.failed = outcome := congrArg Prod.fst h
        have hl : showError st1 longExportFailMsg = log := congrArg Prod.snd h
        have hld : log.downloads = [] := by
          rw [← hl]
          show st1.downloads = []
          exact hd1
        refine ⟨by rw [hld]; simp, fun _ => hld, ?_, ?_⟩
        · intro b hb
          rw [hld] at hb
          exact absurd hb (by simp)
        · intro _ b hb
          rw [hld] at hb
          exact absurd hb (by simp)
  · cases hfet : fetchAudioWithRetry tr (trim rawText) (shortLang lang) emptyLog with
    | mk res st1 =>
      rw [hfet] at h
      have hd1 : st1.downloads = [] := by
        have := fetchGo_downloads tr (trim rawText) (shortLang lang) fetchFuel 1 0 emptyLog
        rw [fetchAudioWithRetry] at hfet
        rw [hfet] at this
        exact this
      cases res with
      | some bytes =>
        have ho : ExportOutcome.done = outcome := congrArg Prod.fst h
        have hl : downloadBlob st1 bytes = log := congrArg Prod.snd h
        have hld : log.downloads = [bytes] := by
          rw [← hl]
          show st1.downloads ++ [bytes] = _
          rw [hd1]
          rfl
        refine ⟨by rw [hld]; simp, ?_, fun b _ => ho.symm, ?_⟩
        · intro hfld
          rw [← ho] at hfld
          exact absurd hfld (by simp)
        · intro hcl
          exact absurd hcl hlong
      | none =>
        have ho : ExportOutcome.failed = outcome := congrArg Prod.fst h
        have hl : showError st1 shortExportFailMsg = log := congrArg Prod.snd h
        have hld : log.downloads = [] := by
          rw [← hl]
          show st1.downloads = []
          exact hd1
        refine ⟨by rw [hld]; simp, fun _ => hld, ?_, ?_⟩
        · intro b hb
          rw [hld] at hb
          exact absurd hb (by simp)
        · intro _ b hb
          rw [hld] at hb
          exact absurd hb (by simp)

theorem claim_c10_witness :
    ((⟨1, [proxyUrl (trim "hi".toList) (shortLang "en".toList) 0], [], [], [[7]], []⟩ :
        EffectLog).downloads).length ≤ 1 ∧
    (ExportOutcome.done = ExportOutcome.failed →
      (⟨1, [proxyUrl (trim "hi".toList) (shortLang "en".toList) 0], [], [], [[7]], []⟩ :
        EffectLog).downloads = []) ∧
    (∀ b, (⟨1, [proxyUrl (trim "hi".toList) (shortLang "en".toList) 0], [], [], [[7]], []⟩ :
        EffectLog).downloads = [b] → ExportOutcome.done = ExportOutcome.done) ∧
    (CHUNK_SIZE < (trim "hi".toList).length → ∀ b,
      (⟨1, [proxyUrl (trim "hi".toList) (shortLang "en".toList) 0], [], [], [[7]], []⟩ :
        EffectLog).downloads = [b] →
      ∃ ns : List Nat, ns.length = (chunkText (trim "hi".toList) CHUNK_SIZE).length ∧
        b = (ns.map (fun n => (classify (okTransport n)).getD [])).flatten) :=
  claim_c10_download_atomicity okTransport "hi".toList "en".toList ExportOutcome.done
    ⟨1, [proxyUrl (trim "hi".toList) (shortLang "en".toList) 0], [], [], [[7]], []⟩ rfl

end VoxFree
